import Mathlib

/-!
Verification of the block-document model, input interpreter and page
directory of `src/app.js` (a client-side block-based note editor).

The JavaScript code is shallowly embedded: the global `state` object
becomes the `AppState` record, `localStorage` (restricted to the
`page-<name>` block-list keys that the block operations read and write)
becomes the `Store` association list, and each JS function that mutates
`state` becomes a Lean function from the old state (plus its explicit
inputs: fresh ids, the current time, caret offsets, key modifiers) to
the new state.  JS strings are Lean `String`s; the JS string primitives
used by the code (`substring`, `length`, `startsWith`, `replace(/^~/,'')`)
are embedded as operations on the underlying character list.
-/

namespace Mejakerja

/-- Embedding of JS `s.substring(0, n)` (prefix of the first `n` characters). -/
def jsSubstringTo (s : String) (n : Nat) : String := ⟨s.data.take n⟩

/-- Embedding of JS `s.substring(n)` (suffix from character position `n`). -/
def jsSubstringFrom (s : String) (n : Nat) : String := ⟨s.data.drop n⟩

/-- Embedding of JS `s.length`. -/
def jsLength (s : String) : Nat := s.data.length

/-- Embedding of JS `s.startsWith('~')` (the todo "checked" sentinel test). -/
def startsWithTilde (s : String) : Bool :=
  match s.data with
  | [] => false
  | c :: _ => c = '~'

/-- Embedding of JS `s.replace(/^~/, '')`: drop one leading `~` if present. -/
def stripLeadingTilde (s : String) : String :=
  match s.data with
  | [] => s
  | c :: rest => if c = '~' then ⟨rest⟩ else s

/-- A sub-block as stored in a block's `children` array.  In `app.js` the
`children` field is only ever copied around (every call site passes `[]`
or a shallow copy), one nesting level deep, so its entries are embedded
as flat block records. -/
structure SubBlock where
  id : String
  type : String
  content : String
  indent : Int
  deriving Repr, DecidableEq

/-- A content block, as produced by `createBlock` in `app.js`. -/
structure Block where
  id : String
  type : String
  content : String
  indent : Int
  children : List SubBlock
  createdAt : Nat
  updatedAt : Nat
  deriving Repr, DecidableEq

/-- A page record, as produced by `createPage` in `app.js`. -/
structure Page where
  id : String
  name : String
  parentId : Option String
  createdAt : Nat
  updatedAt : Nat
  deriving Repr, DecidableEq

/-- The persisted block lists: `localStorage` restricted to the
`page-<name>` keys, with values kept in deserialized form (the code
always writes `JSON.stringify(blocks)` and reads back with
`JSON.parse`). -/
def Store := List (String × List Block)

/-- Embedding of `localStorage.setItem(key, JSON.stringify(val))`. -/
def storeSet (store : Store) (key : String) (val : List Block) : Store :=
  (key, val) :: store.filter (fun kv => kv.1 ≠ key)

/-- Embedding of `localStorage.removeItem(key)`. -/
def storeRemove (store : Store) (key : String) : Store :=
  store.filter (fun kv => kv.1 ≠ key)

/-- Embedding of `localStorage.getItem(key)` (parsed). -/
def storeGet (store : Store) (key : String) : Option (List Block) :=
  (store.find? (fun kv => kv.1 = key)).map (·.2)

/-- Embedding of `JSON.parse(localStorage.getItem(key)) || []`. -/
def storeGetD (store : Store) (key : String) : List Block :=
  (storeGet store key).getD []

/-- The `page-${name}` key used for a page's persisted block list. -/
def pageKey (name : String) : String := "page-" ++ name

/-- The global `state` object of `app.js`, restricted to the model-level
fields (DOM/theme/sidebar fields are view concerns and are dropped). -/
structure AppState where
  currentPage : Option String
  pages : List Page
  blocks : List Block
  lastBlockType : String
  favorites : List String
  recentPages : List String
  deriving Repr, DecidableEq

/-- `saveBlocks()`: persist `state.blocks` under the current page's key
(a no-op when no page is current). -/
def saveBlocks (st : AppState) (store : Store) : Store :=
  match st.currentPage with
  | some p => storeSet store (pageKey p) st.blocks
  | none => store

/-- `createBlock(type, content, indent, children)`: records the new
block's type in `state.lastBlockType` and returns a fresh block.  The
fresh id (from `generateId()`) and the creation time (from `new Date()`)
are explicit inputs. -/
def createBlock (st : AppState) (ty : String) (content : String) (indent : Int)
    (children : List SubBlock) (freshId : String) (now : Nat) : AppState × Block :=
  ({ st with lastBlockType := ty },
   { id := freshId, type := ty, content := content, indent := indent,
     children := children, createdAt := now, updatedAt := now })

/-- `addBlock(type, content, indent, position, children)`: create a block
and splice it into `state.blocks` at `position` (append when `null`),
then persist. -/
def addBlock (st : AppState) (store : Store) (ty : String) (content : String)
    (indent : Int) (position : Option Nat) (children : List SubBlock)
    (freshId : String) (now : Nat) : AppState × Store :=
  let res := createBlock st ty content indent children freshId now
  let st1 := res.1
  let newBlock := res.2
  let blocks' :=
    match position with
    | none => st1.blocks ++ [newBlock]
    | some p => st1.blocks.take p ++ newBlock :: st1.blocks.drop p
  let st2 := { st1 with blocks := blocks' }
  (st2, saveBlocks st2 store)

/-- A partial-fields argument to `updateBlock` (the `updates` object). -/
structure BlockUpdates where
  type : Option String := none
  content : Option String := none
  indent : Option Int := none
  deriving Repr, DecidableEq

/-- Merging an `updates` object into a block (`{ ...block, ...updates }`
with `updates.updatedAt` freshly stamped). -/
def applyUpdates (b : Block) (u : BlockUpdates) (now : Nat) : Block :=
  { b with
    type := u.type.getD b.type,
    content := u.content.getD b.content,
    indent := u.indent.getD b.indent,
    updatedAt := now }

/-- `updateBlock(id, updates)`: merge `updates` into the first block
matching `id` and persist; silently a no-op when `id` is not found. -/
def updateBlock (st : AppState) (store : Store) (id : String) (u : BlockUpdates)
    (now : Nat) : AppState × Store :=
  match st.blocks.findIdx? (fun b => b.id = id) with
  | some i =>
    match st.blocks[i]? with
    | some b =>
      let st2 := { st with blocks := st.blocks.set i (applyUpdates b u now) }
      (st2, saveBlocks st2 store)
    | none => (st, store)
  | none => (st, store)

/-- `deleteBlock(id)`: remove the first block matching `id` and persist;
silently a no-op when `id` is not found. -/
def deleteBlock (st : AppState) (store : Store) (id : String) : AppState × Store :=
  match st.blocks.findIdx? (fun b => b.id = id) with
  | some i =>
    let st2 := { st with blocks := st.blocks.eraseIdx i }
    (st2, saveBlocks st2 store)
  | none => (st, store)

/-- The markdown-autocomplete `input` handler installed by
`setupBlockEventListeners`: if the whole new text equals one of the
trigger strings and the (render-time) block type differs from the
implied type, retype and clear in one `updateBlock`; otherwise store the
new text as the block's content. -/
def handleBlockInput (st : AppState) (store : Store) (block : Block)
    (newText : String) (now : Nat) : AppState × Store :=
  if newText = "# " ∧ block.type ≠ "h1" then
    updateBlock st store block.id { type := some "h1", content := some "" } now
  else if newText = "## " ∧ block.type ≠ "h2" then
    updateBlock st store block.id { type := some "h2", content := some "" } now
  else if newText = "### " ∧ block.type ≠ "h3" then
    updateBlock st store block.id { type := some "h3", content := some "" } now
  else if newText = "* " ∧ block.type ≠ "bullet" then
    updateBlock st store block.id { type := some "bullet", content := some "" } now
  else if newText = "1. " ∧ block.type ≠ "numbered" then
    updateBlock st store block.id { type := some "numbered", content := some "" } now
  else if newText = "> " ∧ block.type ≠ "toggle" then
    updateBlock st store block.id { type := some "toggle", content := some "" } now
  else if newText = "[] " ∧ block.type ≠ "todo" then
    updateBlock st store block.id { type := some "todo", content := some "" } now
  else if newText = "---" ∧ block.type ≠ "divider" then
    updateBlock st store block.id { type := some "divider", content := some "" } now
  else if newText = "``` " ∧ block.type ≠ "code" then
    updateBlock st store block.id { type := some "code", content := some "" } now
  else
    updateBlock st store block.id { content := some newText } now

/-- The list literal `['todo', 'bullet', 'numbered']` tested by the
boundary-Enter branch of `handleBlockKeydown` (the "sticky" types). -/
def stickyTypes : List String := ["todo", "bullet", "numbered"]

/-- The `Enter` branch of `handleBlockKeydown(block, index)`: split the
block at the caret when the caret is strictly inside the content,
otherwise append a fresh empty block (sticky list types propagate,
all other types fall back to `state.lastBlockType`). -/
def handleBlockKeydownEnter (st : AppState) (store : Store) (block : Block)
    (index : Nat) (caretOffset : Nat) (freshId : String) (now : Nat) :
    AppState × Store :=
  let currentContent := block.content
  if 0 < caretOffset ∧ caretOffset < jsLength currentContent then
    let beforeText := jsSubstringTo currentContent caretOffset
    let afterText := jsSubstringFrom currentContent caretOffset
    let res := updateBlock st store block.id { content := some beforeText } now
    addBlock res.1 res.2 block.type afterText block.indent (some (index + 1)) [] freshId now
  else
    let nextType :=
      if stickyTypes.contains block.type then block.type
      else st.lastBlockType
    addBlock st store nextType "" block.indent (some (index + 1)) [] freshId now

/-- The indent update computed by the `Tab` branch of
`handleBlockKeydown`: `Math.max(0, indent - 1)` with Shift held,
`Math.min(4, indent + 1)` otherwise. -/
def reindentStep (shiftKey : Bool) (indent : Int) : Int :=
  if shiftKey then max 0 (indent - 1) else min 4 (indent + 1)

/-- The `Tab` branch of `handleBlockKeydown`, re-fetching the block by id
the way the render-time closure does. -/
def handleBlockKeydownTab (st : AppState) (store : Store) (id : String)
    (shiftKey : Bool) (now : Nat) : AppState × Store :=
  match st.blocks.find? (fun b => b.id = id) with
  | some block =>
    updateBlock st store block.id { indent := some (reindentStep shiftKey block.indent) } now
  | none => (st, store)

/-- The todo checkbox `change` handler: given the checkbox's new state,
re-prefix or strip the `~` sentinel on the block's content. -/
def todoCheckboxChange (st : AppState) (store : Store) (block : Block)
    (checked : Bool) (now : Nat) : AppState × Store :=
  let newContent :=
    if checked then "~" ++ stripLeadingTilde block.content
    else stripLeadingTilde block.content
  updateBlock st store block.id { content := some newContent } now

/-- One user click on a rendered todo checkbox, as a function of the
content alone: the checkbox is rendered checked exactly when the content
starts with `~` (see `renderBlocks`), so a click flips it to the
opposite state before the `change` handler runs. -/
def todoToggleContent (content : String) : String :=
  let checked := !(startsWithTilde content)
  if checked then "~" ++ stripLeadingTilde content
  else stripLeadingTilde content

/-- `toggleFavorite(pageName)`: append when absent, splice out the first
occurrence when present. -/
def toggleFavorite (st : AppState) (name : String) : AppState :=
  match st.favorites.findIdx? (fun f => f = name) with
  | none => { st with favorites := st.favorites ++ [name] }
  | some i => { st with favorites := st.favorites.eraseIdx i }

/-- The `recentPages` update performed by `loadPage`: filter out the
name, unshift it, and pop the last entry when the length exceeds 5. -/
def recentsStep (name : String) (recents : List String) : List String :=
  let r1 := recents.filter (fun rp => rp ≠ name)
  let r2 := name :: r1
  if r2.length > 5 then r2.dropLast else r2

/-- The placeholder-seeding step at the end of `loadPage`: when the
loaded block list is empty, replace it with one fresh placeholder text
block and persist. -/
def seedIfEmpty (st : AppState) (store : Store) (freshId : String) (now : Nat) :
    AppState × Store :=
  if st.blocks.isEmpty then
    let res := createBlock st "text" "Type / for commands" 0 [] freshId now
    let st3 := { res.1 with blocks := [res.2] }
    (st3, saveBlocks st3 store)
  else (st, store)

/-- `loadPage(name)`: a no-op for unknown names; otherwise make the page
current, read its persisted block list, move its name to the front of
`recentPages` (dropping the oldest entry past the cap of 5), and seed a
single placeholder text block when the loaded list is empty. -/
def loadPage (st : AppState) (store : Store) (name : String) (freshId : String)
    (now : Nat) : AppState × Store :=
  if st.pages.any (fun p => p.name = name) then
    let st1 := { st with currentPage := some name, blocks := storeGetD store (pageKey name) }
    let st2 := { st1 with recentPages := recentsStep name st1.recentPages }
    seedIfEmpty st2 store freshId now
  else (st, store)

/-- `createPage(name, parentId)`: abort on a duplicate name, otherwise
append the fresh page record and load it. -/
def createPage (st : AppState) (store : Store) (name : String)
    (parentId : Option String) (freshPageId : String) (freshBlockId : String)
    (now : Nat) : AppState × Store :=
  if st.pages.any (fun p => p.name = name) then (st, store)
  else
    let newPage : Page :=
      { id := freshPageId, name := name, parentId := parentId,
        createdAt := now, updatedAt := now }
    let st1 := { st with pages := st.pages ++ [newPage] }
    loadPage st1 store name freshBlockId now

/-- `renamePage(oldName, newName)`: abort (returning `false`) on a name
collision or unknown old name; otherwise rewrite the page record, the
first matching favorites and recents entries, the current-page
reference, and move the persisted block list to the new key. -/
def renamePage (st : AppState) (store : Store) (oldName newName : String)
    (now : Nat) : (AppState × Store) × Bool :=
  if st.pages.any (fun p => p.name = newName) then ((st, store), false)
  else
    match st.pages.findIdx? (fun p => p.name = oldName) with
    | none => ((st, store), false)
    | some i =>
      let pages' :=
        match st.pages[i]? with
        | some pg => st.pages.set i { pg with name := newName, updatedAt := now }
        | none => st.pages
      let favorites' :=
        match st.favorites.findIdx? (fun f => f = oldName) with
        | some j => st.favorites.set j newName
        | none => st.favorites
      let recents' :=
        match st.recentPages.findIdx? (fun r => r = oldName) with
        | some j => st.recentPages.set j newName
        | none => st.recentPages
      let current' := if st.currentPage = some oldName then some newName else st.currentPage
      let store' :=
        match storeGet store (pageKey oldName) with
        | some blocks => storeRemove (storeSet store (pageKey newName) blocks) (pageKey oldName)
        | none => store
      let st' : AppState :=
        { st with
          pages := pages',
          favorites := favorites',
          recentPages := recents',
          currentPage := current' }
      ((st', store'), true)

/-- The names of the direct child pages of `pg` (`state.pages.filter(p =>
p.parentId === pageToDelete.id)`, projected to names). -/
def childNames (pages : List Page) (pg : Page) : List String :=
  (pages.filter (fun p => p.parentId = some pg.id)).map (fun p => p.name)

/-- The tail of one `deletePage` call, after all child pages have been
deleted: drop the page from the page list and from favorites/recents,
repoint the current page at the first remaining page (reloading its
blocks) when the deleted page was current, and remove the persisted
block list. -/
def removePageFromState (st : AppState) (store : Store) (name : String) :
    AppState × Store :=
  let st2 := { st with
    pages := st.pages.filter (fun p => p.name ≠ name),
    favorites := st.favorites.filter (fun f => f ≠ name),
    recentPages := st.recentPages.filter (fun r => r ≠ name) }
  let st3 :=
    if st2.currentPage = some name then
      let newCurrent := st2.pages.head?.map (fun p => p.name)
      { st2 with
        currentPage := newCurrent,
        blocks :=
          match newCurrent with
          | some cp => storeGetD store (pageKey cp)
          | none => [] }
    else st2
  (st3, storeRemove store (pageKey name))

/-- `deletePage(name)`, with the destructive-confirmation capability
granting every request (every `confirm(...)` returns `true`).  The JS
recursion over child pages is embedded with an explicit fuel parameter;
any fuel at least the height of the deleted subtree reproduces the JS
behaviour. -/
def deletePage : Nat → AppState → Store → String → AppState × Store
  | 0, st, store, _ => (st, store)
  | fuel + 1, st, store, name =>
    let afterChildren :=
      match st.pages.find? (fun p => p.name = name) with
      | some pageToDelete =>
        (childNames st.pages pageToDelete).foldl
          (fun acc childName => deletePage fuel acc.1 acc.2 childName) (st, store)
      | none => (st, store)
    removePageFromState afterChildren.1 afterChildren.2 name

/-- A finite tree of page names: the shape of the parent-child structure
that `deletePage` recurses over. -/
inductive PageTree where
  | node (name : String) (children : List PageTree)
  deriving Repr

/-- The name at the root of a subtree. -/
def PageTree.rootName : PageTree → String
  | .node nm _ => nm

mutual

/-- Height of a page subtree (at least 1). -/
def PageTree.height : PageTree → Nat
  | .node _ cs => 1 + PageTree.heightList cs

/-- Greatest height among a list of subtrees. -/
def PageTree.heightList : List PageTree → Nat
  | [] => 0
  | t :: ts => max (PageTree.height t) (PageTree.heightList ts)

end

mutual

/-- All page names of a subtree, root first. -/
def PageTree.names : PageTree → List String
  | .node nm cs => nm :: PageTree.namesList cs

/-- All page names of a list of subtrees, in order. -/
def PageTree.namesList : List PageTree → List String
  | [] => []
  | t :: ts => PageTree.names t ++ PageTree.namesList ts

end

/-- `TreeOK pages t` says that the name tree `t` exactly mirrors the
parent-child structure recorded in `pages` below its root: the root
names a page found by `find?`, whose direct children (the pages whose
`parentId` is that page's id, in list order) are exactly the roots of
`t`'s child subtrees, recursively. -/
inductive TreeOK : List Page → PageTree → Prop where
  | node (pages : List Page) (nm : String) (cs : List PageTree) (pg : Page)
      (hfind : pages.find? (fun p => p.name = nm) = some pg)
      (hchildren : childNames pages pg = cs.map PageTree.rootName)
      (hcs : ∀ c ∈ cs, TreeOK pages c) :
      TreeOK pages (.node nm cs)

/-- The block type implied by a markdown autocomplete trigger string
(the nine exact-match triggers of the `input` handler), or `none` for
every other text. -/
def impliedType? (s : String) : Option String :=
  if s = "# " then some "h1"
  else if s = "## " then some "h2"
  else if s = "### " then some "h3"
  else if s = "* " then some "bullet"
  else if s = "1. " then some "numbered"
  else if s = "> " then some "toggle"
  else if s = "[] " then some "todo"
  else if s = "---" then some "divider"
  else if s = "``` " then some "code"
  else none

/-! ## Concrete fixtures used by witness and counterexample theorems -/

/-- A concrete text block. -/
def wBlock : Block :=
  { id := "b0", type := "text", content := "hello", indent := 0, children := [],
    createdAt := 0, updatedAt := 0 }

/-- A concrete todo block. -/
def wTodo : Block :=
  { id := "t0", type := "todo", content := "buy milk", indent := 0, children := [],
    createdAt := 0, updatedAt := 0 }

/-- A concrete page record. -/
def wPage : Page :=
  { id := "ip", name := "P", parentId := none, createdAt := 0, updatedAt := 0 }

/-- A concrete app state: one page `P`, currently loaded, holding the
single text block `wBlock`. -/
def wState : AppState :=
  { currentPage := some "P", pages := [wPage], blocks := [wBlock],
    lastBlockType := "text", favorites := ["A", "B"], recentPages := [] }

/-- A concrete app state with six pages `p1` .. `p6` and empty recents. -/
def wSix : AppState :=
  { currentPage := none,
    pages := [{ id := "i1", name := "p1", parentId := none, createdAt := 0, updatedAt := 0 },
              { id := "i2", name := "p2", parentId := none, createdAt := 0, updatedAt := 0 },
              { id := "i3", name := "p3", parentId := none, createdAt := 0, updatedAt := 0 },
              { id := "i4", name := "p4", parentId := none, createdAt := 0, updatedAt := 0 },
              { id := "i5", name := "p5", parentId := none, createdAt := 0, updatedAt := 0 },
              { id := "i6", name := "p6", parentId := none, createdAt := 0, updatedAt := 0 }],
    blocks := [], lastBlockType := "text", favorites := [], recentPages := [] }

/-- Concrete pages for the cascade-delete scenario: `A` with child `B`,
grandchild `C`, and an unrelated page `D`. -/
def wPgA : Page := { id := "ia", name := "A", parentId := none, createdAt := 0, updatedAt := 0 }

/-- Child of `A`. -/
def wPgB : Page := { id := "ib", name := "B", parentId := some "ia", createdAt := 0, updatedAt := 0 }

/-- Grandchild (child of `B`). -/
def wPgC : Page := { id := "ic", name := "C", parentId := some "ib", createdAt := 0, updatedAt := 0 }

/-- Unrelated root page. -/
def wPgD : Page := { id := "idx", name := "D", parentId := none, createdAt := 0, updatedAt := 0 }

/-- App state for the cascade-delete scenario; `A` is current. -/
def wDelState : AppState :=
  { currentPage := some "A", pages := [wPgA, wPgB, wPgC, wPgD], blocks := [],
    lastBlockType := "text", favorites := ["B", "D"], recentPages := ["C", "A"] }

/-- Stored block lists for the cascade-delete scenario. -/
def wDelStore : Store :=
  [(pageKey "A", []), (pageKey "B", []), (pageKey "C", [wBlock]), (pageKey "D", [])]

/-- The name tree below `A` in `wDelState`. -/
def wDelTree : PageTree := .node "A" [.node "B" [.node "C" []]]

/-! ## General helper lemmas -/

theorem findIdx?_of_nodup_keys {α β : Type} [DecidableEq β] (l : List α) (f : α → β)
    (i : Nat) (a : α) (hidx : l[i]? = some a) (hnd : (l.map f).Nodup) :
    l.findIdx? (fun x => f x = f a) = some i := by
  obtain ⟨hi, hget⟩ := List.getElem?_eq_some_iff.mp hidx
  rw [List.findIdx?_eq_some_iff_getElem]
  refine ⟨hi, by simp [hget], ?_⟩
  intro j hji
  simp only [decide_eq_true_eq]
  intro hj
  have hj' : j < l.length := Nat.lt_trans hji hi
  have hi2 : i < (l.map f).length := by simpa using hi
  have hj2 : j < (l.map f).length := by simpa using hj'
  have hmm : (l.map f)[j] = (l.map f)[i] := by
    simpa [hget] using hj
  have := (List.Nodup.getElem_inj_iff hnd).mp hmm
  omega

theorem take_succ_set {α : Type} (l : List α) (i : Nat) (b : α) (h : i < l.length) :
    (l.set i b).take (i + 1) = l.take i ++ [b] := by
  rw [List.set_take, List.take_succ, List.set_append]
  have hlen : (l.take i).length = i := by
    rw [List.length_take]; omega
  rw [hlen, if_neg (by omega)]
  have hx : l[i]? = some l[i] := List.getElem?_eq_getElem h
  simp [hx]

theorem drop_succ_set {α : Type} (l : List α) (i : Nat) (b : α) :
    (l.set i b).drop (i + 1) = l.drop (i + 1) := by
  rw [List.drop_set]
  rw [if_pos (by omega)]

/-- `updateBlock` on the id of the block known to sit at index `i`
(ids pairwise distinct) rewrites exactly that index. -/
theorem updateBlock_found (st : AppState) (store : Store) (i : Nat) (b : Block)
    (u : BlockUpdates) (now : Nat)
    (hidx : st.blocks[i]? = some b) (hnd : (st.blocks.map Block.id).Nodup) :
    updateBlock st store b.id u now =
      ({ st with blocks := st.blocks.set i (applyUpdates b u now) },
       saveBlocks { st with blocks := st.blocks.set i (applyUpdates b u now) } store) := by
  unfold updateBlock
  rw [findIdx?_of_nodup_keys st.blocks Block.id i b hidx hnd]
  simp [hidx]

/-! ## Claim theorems -/

/-- Claim C1 (split law): with the caret strictly inside the content,
the Enter handler truncates the source block to the prefix before the
caret, inserts a new block of the same type and indent holding the
suffix immediately after it, and the two contents concatenate back to
the original content exactly. -/
theorem handleBlockKeydownEnter_split_law
    (st : AppState) (store : Store) (block : Block) (index caretOffset : Nat)
    (freshId : String) (now : Nat)
    (hidx : st.blocks[index]? = some block)
    (hnd : (st.blocks.map Block.id).Nodup)
    (h0 : 0 < caretOffset) (hlen : caretOffset < jsLength block.content) :
    (handleBlockKeydownEnter st store block index caretOffset freshId now).1.blocks
      = st.blocks.take index
          ++ { block with
               content := jsSubstringTo block.content caretOffset,
               updatedAt := now }
            :: { id := freshId,
                 type := block.type,
                 content := jsSubstringFrom block.content caretOffset,
                 indent := block.indent,
                 children := [],
                 createdAt := now,
                 updatedAt := now }
            :: st.blocks.drop (index + 1)
    ∧ jsSubstringTo block.content caretOffset ++ jsSubstringFrom block.content caretOffset
        = block.content := by
  have hi : index < st.blocks.length := (List.getElem?_eq_some_iff.mp hidx).1
  constructor
  · unfold handleBlockKeydownEnter
    rw [if_pos ⟨h0, hlen⟩]
    simp only [updateBlock_found st store index block _ now hidx hnd, addBlock, createBlock]
    simp only [applyUpdates, Option.getD]
    rw [take_succ_set st.blocks index _ hi, drop_succ_set st.blocks index _]
    simp
  · apply String.ext
    simp [jsSubstringTo, jsSubstringFrom, String.data_append]

/-- Witness for C1: splitting the block `"hello"` at caret offset 2. -/
theorem handleBlockKeydownEnter_split_law_witness :
    (handleBlockKeydownEnter wState [] wBlock 0 2 "b1" 5).1.blocks
      = wState.blocks.take 0
          ++ { wBlock with
               content := jsSubstringTo wBlock.content 2,
               updatedAt := 5 }
            :: { id := "b1",
                 type := wBlock.type,
                 content := jsSubstringFrom wBlock.content 2,
                 indent := wBlock.indent,
                 children := [],
                 createdAt := 5,
                 updatedAt := 5 }
            :: wState.blocks.drop 1
    ∧ jsSubstringTo wBlock.content 2 ++ jsSubstringFrom wBlock.content 2 = wBlock.content :=
  handleBlockKeydownEnter_split_law wState [] wBlock 0 2 "b1" 5 (by decide) (by decide)
    (by decide) (by decide)

/-- If the new text is a trigger whose implied type differs from the
block's render-time type, `handleBlockInput` is the retype-and-clear
`updateBlock` call. -/
theorem handleBlockInput_trigger (st : AppState) (store : Store) (block : Block)
    (newText ty : String) (now : Nat)
    (hty : impliedType? newText = some ty) (hneq : block.type ≠ ty) :
    handleBlockInput st store block newText now
      = updateBlock st store block.id { type := some ty, content := some "" } now := by
  by_cases e1 : newText = "# "
  · subst e1
    obtain rfl :=
      (Option.some.inj ((show impliedType? "# " = some "h1" by decide).symm.trans hty))
    unfold handleBlockInput
    simp [hneq]
  by_cases e2 : newText = "## "
  · subst e2
    obtain rfl :=
      (Option.some.inj ((show impliedType? "## " = some "h2" by decide).symm.trans hty))
    unfold handleBlockInput
    simp [hneq]
  by_cases e3 : newText = "### "
  · subst e3
    obtain rfl :=
      (Option.some.inj ((show impliedType? "### " = some "h3" by decide).symm.trans hty))
    unfold handleBlockInput
    simp [hneq]
  by_cases e4 : newText = "* "
  · subst e4
    obtain rfl :=
      (Option.some.inj ((show impliedType? "* " = some "bullet" by decide).symm.trans hty))
    unfold handleBlockInput
    simp [hneq]
  by_cases e5 : newText = "1. "
  · subst e5
    obtain rfl :=
      (Option.some.inj ((show impliedType? "1. " = some "numbered" by decide).symm.trans hty))
    unfold handleBlockInput
    simp [hneq]
  by_cases e6 : newText = "> "
  · subst e6
    obtain rfl :=
      (Option.some.inj ((show impliedType? "> " = some "toggle" by decide).symm.trans hty))
    unfold handleBlockInput
    simp [hneq]
  by_cases e7 : newText = "[] "
  · subst e7
    obtain rfl :=
      (Option.some.inj ((show impliedType? "[] " = some "todo" by decide).symm.trans hty))
    unfold handleBlockInput
    simp [hneq]
  by_cases e8 : newText = "---"
  · subst e8
    obtain rfl :=
      (Option.some.inj ((show impliedType? "---" = some "divider" by decide).symm.trans hty))
    unfold handleBlockInput
    simp [hneq]
  by_cases e9 : newText = "``` "
  · subst e9
    obtain rfl :=
      (Option.some.inj ((show impliedType? "``` " = some "code" by decide).symm.trans hty))
    unfold handleBlockInput
    simp [hneq]
  · exfalso
    unfold impliedType? at hty
    simp [e1, e2, e3, e4, e5, e6, e7, e8, e9] at hty

/-- If the new text is not a trigger, or is a trigger whose implied
type the block already has, `handleBlockInput` is the plain content
`updateBlock` call. -/
theorem handleBlockInput_plain (st : AppState) (store : Store) (block : Block)
    (newText : String) (now : Nat)
    (hcase : impliedType? newText = none ∨ impliedType? newText = some block.type) :
    handleBlockInput st store block newText now
      = updateBlock st store block.id { content := some newText } now := by
  by_cases e1 : newText = "# "
  · subst e1
    have hv : impliedType? "# " = some "h1" := by decide
    rcases hcase with hc | hc
    · rw [hv] at hc; cases hc
    · have ht : block.type = "h1" := (Option.some.inj (hv.symm.trans hc)).symm
      unfold handleBlockInput
      simp [ht]
  by_cases e2 : newText = "## "
  · subst e2
    have hv : impliedType? "## " = some "h2" := by decide
    rcases hcase with hc | hc
    · rw [hv] at hc; cases hc
    · have ht : block.type = "h2" := (Option.some.inj (hv.symm.trans hc)).symm
      unfold handleBlockInput
      simp [ht]
  by_cases e3 : newText = "### "
  · subst e3
    have hv : impliedType? "### " = some "h3" := by decide
    rcases hcase with hc | hc
    · rw [hv] at hc; cases hc
    · have ht : block.type = "h3" := (Option.some.inj (hv.symm.trans hc)).symm
      unfold handleBlockInput
      simp [ht]
  by_cases e4 : newText = "* "
  · subst e4
    have hv : impliedType? "* " = some "bullet" := by decide
    rcases hcase with hc | hc
    · rw [hv] at hc; cases hc
    · have ht : block.type = "bullet" := (Option.some.inj (hv.symm.trans hc)).symm
      unfold handleBlockInput
      simp [ht]
  by_cases e5 : newText = "1. "
  · subst e5
    have hv : impliedType? "1. " = some "numbered" := by decide
    rcases hcase with hc | hc
    · rw [hv] at hc; cases hc
    · have ht : block.type = "numbered" := (Option.some.inj (hv.symm.trans hc)).symm
      unfold handleBlockInput
      simp [ht]
  by_cases e6 : newText = "> "
  · subst e6
    have hv : impliedType? "> " = some "toggle" := by decide
    rcases hcase with hc | hc
    · rw [hv] at hc; cases hc
    · have ht : block.type = "toggle" := (Option.some.inj (hv.symm.trans hc)).symm
      unfold handleBlockInput
      simp [ht]
  by_cases e7 : newText = "[] "
  · subst e7
    have hv : impliedType? "[] " = some "todo" := by decide
    rcases hcase with hc | hc
    · rw [hv] at hc; cases hc
    · have ht : block.type = "todo" := (Option.some.inj (hv.symm.trans hc)).symm
      unfold handleBlockInput
      simp [ht]
  by_cases e8 : newText = "---"
  · subst e8
    have hv : impliedType? "---" = some "divider" := by decide
    rcases hcase with hc | hc
    · rw [hv] at hc; cases hc
    · have ht : block.type = "divider" := (Option.some.inj (hv.symm.trans hc)).symm
      unfold handleBlockInput
      simp [ht]
  by_cases e9 : newText = "``` "
  · subst e9
    have hv : impliedType? "``` " = some "code" := by decide
    rcases hcase with hc | hc
    · rw [hv] at hc; cases hc
    · have ht : block.type = "code" := (Option.some.inj (hv.symm.trans hc)).symm
      unfold handleBlockInput
      simp [ht]
  · unfold handleBlockInput
    simp [e1, e2, e3, e4, e5, e6, e7, e8, e9]

/-- Claim C2 (markdown autocomplete): on a content-change event whose
whole new text equals a trigger string whose implied type differs from
the block's type, the block is retyped and its content cleared in the
same operation; for every other new text (including triggers whose type
already matches) only the content is updated. -/
theorem handleBlockInput_markdown_autocomplete
    (st : AppState) (store : Store) (block : Block) (i : Nat) (newText : String)
    (now : Nat)
    (hidx : st.blocks[i]? = some block)
    (hnd : (st.blocks.map Block.id).Nodup) :
    (∀ ty, impliedType? newText = some ty → block.type ≠ ty →
      (handleBlockInput st store block newText now).1.blocks
        = st.blocks.set i { block with type := ty, content := "", updatedAt := now })
    ∧ ((impliedType? newText = none ∨ impliedType? newText = some block.type) →
      (handleBlockInput st store block newText now).1.blocks
        = st.blocks.set i { block with content := newText, updatedAt := now }) := by
  constructor
  · intro ty hty hneq
    rw [handleBlockInput_trigger st store block newText ty now hty hneq]
    rw [updateBlock_found st store i block _ now hidx hnd]
    simp [applyUpdates]
  · intro hcase
    rw [handleBlockInput_plain st store block newText now hcase]
    rw [updateBlock_found st store i block _ now hidx hnd]
    simp [applyUpdates]

/-- Witness for C2: typing `"## "` into the text block of `wState`
retypes it to `h2` with empty content. -/
theorem handleBlockInput_markdown_autocomplete_witness :
    (handleBlockInput wState [] wBlock "## " 5).1.blocks
      = wState.blocks.set 0 { wBlock with type := "h2", content := "", updatedAt := 5 } :=
  (handleBlockInput_markdown_autocomplete wState [] wBlock 0 "## " 5 (by decide)
    (by decide)).1 "h2" (by decide) (by decide)

/-- Claim C3 (boundary Enter rule): with the caret at the start or at
the end of the content, the Enter handler inserts a fresh empty block
immediately after the current block; its type is the current block's
type when that type is sticky (`todo`, `bullet`, `numbered`) and the
process-wide last-used type otherwise, and `state.lastBlockType` is set
to the created block's type — as it is by every `createBlock` call. -/
theorem handleBlockKeydownEnter_boundary
    (st : AppState) (store : Store) (block : Block) (index caretOffset : Nat)
    (freshId : String) (now : Nat)
    (hidx : st.blocks[index]? = some block)
    (hoff : caretOffset = 0 ∨ caretOffset = jsLength block.content) :
    ((handleBlockKeydownEnter st store block index caretOffset freshId now).1.blocks
      = st.blocks.take index
          ++ block
            :: { id := freshId,
                 type := if stickyTypes.contains block.type then block.type
                         else st.lastBlockType,
                 content := "",
                 indent := block.indent,
                 children := [],
                 createdAt := now,
                 updatedAt := now }
            :: st.blocks.drop (index + 1)
     ∧ (handleBlockKeydownEnter st store block index caretOffset freshId now).1.lastBlockType
        = (if stickyTypes.contains block.type then block.type else st.lastBlockType))
    ∧ ∀ (st' : AppState) (ty content : String) (ind : Int) (ch : List SubBlock)
        (fid : String) (n : Nat),
        (createBlock st' ty content ind ch fid n).1.lastBlockType = ty := by
  have hnotsplit : ¬(0 < caretOffset ∧ caretOffset < jsLength block.content) := by
    rcases hoff with h | h <;> omega
  have htake : st.blocks.take (index + 1) = st.blocks.take index ++ [block] := by
    rw [List.take_succ, hidx]
    rfl
  constructor
  · constructor
    · unfold handleBlockKeydownEnter
      rw [if_neg hnotsplit]
      simp only [addBlock, createBlock]
      rw [htake]
      simp
    · unfold handleBlockKeydownEnter
      rw [if_neg hnotsplit]
      simp [addBlock, createBlock]
  · intro st' ty content ind ch fid n
    rfl

/-- Witness for C3: Enter at the end of a `todo` block propagates the
sticky type. -/
theorem handleBlockKeydownEnter_boundary_witness :
    (((handleBlockKeydownEnter { wState with blocks := [wTodo] } [] wTodo 0 8 "b1" 5).1.blocks
      = [wTodo]
          ++ { id := "b1",
               type := if stickyTypes.contains wTodo.type then wTodo.type
                       else wState.lastBlockType,
               content := "",
               indent := wTodo.indent,
               children := [],
               createdAt := 5,
               updatedAt := 5 }
            :: []
     ∧ (handleBlockKeydownEnter { wState with blocks := [wTodo] } [] wTodo 0 8 "b1" 5).1.lastBlockType
        = (if stickyTypes.contains wTodo.type then wTodo.type else wState.lastBlockType))) := by
  have h := (handleBlockKeydownEnter_boundary { wState with blocks := [wTodo] } [] wTodo 0 8
    "b1" 5 (by decide) (by decide)).1
  exact ⟨by rw [h.1]; decide, h.2⟩

/-- `reindentStep` keeps an indent inside `[0, 4]`. -/
theorem reindentStep_bounds (sh : Bool) (i : Int) (h0 : 0 ≤ i) (h4 : i ≤ 4) :
    0 ≤ reindentStep sh i ∧ reindentStep sh i ≤ 4 := by
  cases sh <;> simp only [reindentStep, if_true, if_false] <;> constructor
  · exact le_min (by omega) (by omega)
  · exact min_le_left _ _
  · exact le_max_left _ _
  · exact max_le (by omega) (by omega)

/-- One `Tab` / `Shift+Tab` keystroke preserves the blockwise indent
range invariant. -/
theorem handleBlockKeydownTab_indent_inv (st : AppState) (store : Store)
    (id : String) (sh : Bool) (now : Nat)
    (hinv : ∀ b ∈ st.blocks, 0 ≤ b.indent ∧ b.indent ≤ 4) :
    ∀ b' ∈ (handleBlockKeydownTab st store id sh now).1.blocks,
      0 ≤ b'.indent ∧ b'.indent ≤ 4 := by
  intro b' hb'
  unfold handleBlockKeydownTab at hb'
  rcases hfind : st.blocks.find? (fun b => b.id = id) with _ | block
  · rw [hfind] at hb'
    exact hinv b' hb'
  · rw [hfind] at hb'
    simp only at hb'
    unfold updateBlock at hb'
    rcases hfi : st.blocks.findIdx? (fun b => b.id = block.id) with _ | i
    · rw [hfi] at hb'
      exact hinv b' hb'
    · rw [hfi] at hb'
      simp only at hb'
      rcases hget : st.blocks[i]? with _ | b
      · rw [hget] at hb'
        exact hinv b' hb'
      · rw [hget] at hb'
        simp only at hb'
        rcases List.mem_or_eq_of_mem_set hb' with hmem | heq
        · exact hinv b' hmem
        · subst heq
          have hbm : block ∈ st.blocks := List.mem_of_find?_eq_some hfind
          have := hinv block hbm
          simp only [applyUpdates, Option.getD]
          exact reindentStep_bounds sh block.indent this.1 this.2

/-- Claim C8 (indent invariant): the `Tab`/`Shift+Tab` indent update is
the clamp of `indent ± 1` into `[0, 4]` on that range, and after any
sequence of such reindent keystrokes every block whose indent started in
`[0, 4]` still has its indent in `[0, 4]`. -/
theorem reindent_indent_invariant :
    (∀ (sh : Bool) (i : Int), 0 ≤ i → i ≤ 4 →
      reindentStep sh i = max 0 (min 4 (i + (if sh then -1 else 1))))
    ∧ ∀ (ops : List (String × Bool)) (st : AppState) (store : Store) (now : Nat),
        (∀ b ∈ st.blocks, 0 ≤ b.indent ∧ b.indent ≤ 4) →
        ∀ b' ∈ (ops.foldl (fun acc op =>
            handleBlockKeydownTab acc.1 acc.2 op.1 op.2 now) (st, store)).1.blocks,
          0 ≤ b'.indent ∧ b'.indent ≤ 4 := by
  constructor
  · intro sh i h0 h4
    cases sh
    · simp only [reindentStep, if_false, Bool.false_eq_true]
      rw [max_eq_right (le_min (by omega) (by omega))]
    · simp only [reindentStep, if_true]
      rw [min_eq_right (by omega : i + (-1 : Int) ≤ 4)]
      rw [show i - (1 : Int) = i + (-1) by omega]
  · intro ops
    induction ops with
    | nil =>
      intro st store now hinv
      exact hinv
    | cons op ops ih =>
      intro st store now hinv
      rw [List.foldl_cons]
      exact ih (handleBlockKeydownTab st store op.1 op.2 now).1
        (handleBlockKeydownTab st store op.1 op.2 now).2 now
        (handleBlockKeydownTab_indent_inv st store op.1 op.2 now hinv)

/-- Witness for C8: one plain `Tab` on the single text block of `wState`
moves its indent to 1, inside the range. -/
theorem reindent_indent_invariant_witness :
    reindentStep false 0 = max 0 (min 4 ((0 : Int) + (if false then -1 else 1)))
    ∧ (0 ≤ ({ wBlock with indent := 1, updatedAt := 7 } : Block).indent
       ∧ ({ wBlock with indent := 1, updatedAt := 7 } : Block).indent ≤ 4) :=
  ⟨reindent_indent_invariant.1 false 0 (by decide) (by decide),
   reindent_indent_invariant.2 [("b0", false)] wState [] 7 (by decide)
     { wBlock with indent := 1, updatedAt := 7 } (by decide)⟩

/-- Claim C6, counterexample: on the content `"~~a"` (which begins with
two sentinel characters) toggling the todo checkbox twice does not
return the original content — the second sentinel is lost. -/
theorem todoToggleContent_double_counterexample :
    todoToggleContent (todoToggleContent "~~a") ≠ "~~a" := by decide

/-- Claim C6 as amended: the checkbox toggle adds the leading `~`
sentinel to an unchecked content and removes exactly the leading
sentinel from a checked content, never altering the remaining text; at
the block level this is the single `updateBlock` the `change` handler
emits; and toggling twice restores the content exactly whenever the
content does not begin with two sentinel characters. -/
theorem todoToggleContent_sentinel
    : (∀ (st : AppState) (store : Store) (i : Nat) (block : Block) (now : Nat),
        st.blocks[i]? = some block → (st.blocks.map Block.id).Nodup →
        (todoCheckboxChange st store block (!(startsWithTilde block.content)) now).1.blocks
          = st.blocks.set i
              { block with content := todoToggleContent block.content, updatedAt := now })
    ∧ (∀ c : String, startsWithTilde c = false → todoToggleContent c = "~" ++ c)
    ∧ (∀ c : String, startsWithTilde c = true → "~" ++ todoToggleContent c = c)
    ∧ (∀ c : String, startsWithTilde (stripLeadingTilde c) = false →
        todoToggleContent (todoToggleContent c) = c) := by
  have hstrip_of_false : ∀ c : String, startsWithTilde c = false → stripLeadingTilde c = c := by
    intro c h
    rcases c with ⟨l⟩
    cases l with
    | nil => rfl
    | cons a t =>
      have ha : ¬(a = '~') := by simpa [startsWithTilde] using h
      simp [stripLeadingTilde, ha]
  have htoggle_false : ∀ c : String, startsWithTilde c = false →
      todoToggleContent c = "~" ++ c := by
    intro c h
    unfold todoToggleContent
    rw [h, hstrip_of_false c h]
    simp
  have htoggle_true : ∀ c : String, startsWithTilde c = true →
      "~" ++ todoToggleContent c = c := by
    intro c h
    unfold todoToggleContent
    rw [h]
    simp only [Bool.not_true, Bool.false_eq_true, if_false]
    rcases c with ⟨l⟩
    cases l with
    | nil => simp [startsWithTilde] at h
    | cons a t =>
      have ha : a = '~' := by simpa [startsWithTilde] using h
      subst ha
      simp only [stripLeadingTilde, if_pos rfl]
      apply String.ext
      rw [String.data_append]
      rfl
  refine ⟨?_, htoggle_false, htoggle_true, ?_⟩
  · intro st store i block now hidx hnd
    unfold todoCheckboxChange
    rw [updateBlock_found st store i block _ now hidx hnd]
    simp [applyUpdates, todoToggleContent]
  · intro c h
    rcases hsw : startsWithTilde c with _ | _
    · have e1 := htoggle_false c hsw
      rw [e1]
      have h2 : startsWithTilde ("~" ++ c) = true := by
        rcases c with ⟨l⟩
        unfold startsWithTilde
        rw [String.data_append]
        rfl
      unfold todoToggleContent
      rw [h2]
      simp only [Bool.not_true, Bool.false_eq_true, if_false]
      have h3 : stripLeadingTilde ("~" ++ c) = c := by
        rcases c with ⟨l⟩
        unfold stripLeadingTilde
        rw [String.data_append]
        simp only []
        rfl
      exact h3
    · have e1 : todoToggleContent c = stripLeadingTilde c := by
        unfold todoToggleContent
        rw [hsw]
        simp
      rw [e1]
      have e2 := htoggle_false (stripLeadingTilde c) h
      rw [e2]
      have : "~" ++ stripLeadingTilde c = c := by
        rcases c with ⟨l⟩
        cases l with
        | nil => simp [startsWithTilde] at hsw
        | cons a t =>
          have ha : a = '~' := by simpa [startsWithTilde] using hsw
          subst ha
          simp only [stripLeadingTilde, if_pos rfl]
          apply String.ext
          rw [String.data_append]
          rfl
      exact this

/-- Witness for C6 (amended): toggling `"buy milk"` adds the sentinel
and toggling twice restores it exactly. -/
theorem todoToggleContent_sentinel_witness :
    todoToggleContent "buy milk" = "~" ++ "buy milk"
    ∧ todoToggleContent (todoToggleContent "buy milk") = "buy milk" :=
  ⟨todoToggleContent_sentinel.2.1 "buy milk" (by decide),
   todoToggleContent_sentinel.2.2.2 "buy milk" (by decide)⟩

/-- `eraseIdx` at the index delivered by `findIdx?` on an equality
predicate is `List.erase`. -/
theorem eraseIdx_findIdx?_eq_erase (l : List String) (a : String) (i : Nat)
    (h : l.findIdx? (fun x => x = a) = some i) :
    l.eraseIdx i = l.erase a := by
  induction l generalizing i with
  | nil => simp at h
  | cons b t ih =>
    rw [List.findIdx?_cons] at h
    by_cases hb : b = a
    · subst hb
      rw [if_pos (by simp)] at h
      obtain rfl := Option.some.inj h
      simp [List.eraseIdx]
    · rw [if_neg (by simp [hb])] at h
      rw [List.findIdx?_succ] at h
      rcases ho : t.findIdx? (fun x => x = a) with _ | j
      · rw [ho] at h; cases h
      · rw [ho] at h
        obtain rfl := Option.some.inj h
        rw [List.erase_cons_tail (by simp [hb])]
        simp [List.eraseIdx, ih j ho]

/-- `toggleFavorite` in closed form: erase the first occurrence when
present, append when absent. -/
theorem toggleFavorite_eq (st : AppState) (name : String) :
    toggleFavorite st name =
      { st with favorites :=
          if name ∈ st.favorites then st.favorites.erase name
          else st.favorites ++ [name] } := by
  unfold toggleFavorite
  rcases h : st.favorites.findIdx? (fun f => f = name) with _ | i
  · have hnm : name ∉ st.favorites := by
      intro hmem
      have := List.findIdx?_eq_none_iff.mp h name hmem
      simp at this
    simp [hnm]
  · have hmem : name ∈ st.favorites := by
      obtain ⟨hlt, hp, _⟩ := List.findIdx?_eq_some_iff_getElem.mp h
      have hv : st.favorites[i] = name := by simpa using hp
      exact hv ▸ List.getElem_mem hlt
    simp only []
    rw [if_pos hmem, eraseIdx_findIdx?_eq_erase st.favorites name i h]

/-- Claim C7, counterexample: with favorites `["A", "B"]`, toggling
`"A"` twice yields `["B", "A"]` — the membership is restored but the
original order is not. -/
theorem toggleFavorite_double_counterexample :
    (toggleFavorite (toggleFavorite wState "A") "A").favorites ≠ wState.favorites := by
  decide

/-- Claim C7 as amended: a single toggle appends the name when absent
and erases its first occurrence when present (neither is an error);
toggling twice restores the favorites exactly when the name was absent,
and in general (for duplicate-free favorites) restores them up to a
permutation — the membership, though not necessarily the order. -/
theorem toggleFavorite_toggle
    : (∀ (st : AppState) (name : String), name ∉ st.favorites →
        (toggleFavorite st name).favorites = st.favorites ++ [name])
    ∧ (∀ (st : AppState) (name : String), name ∈ st.favorites →
        (toggleFavorite st name).favorites = st.favorites.erase name)
    ∧ (∀ (st : AppState) (name : String), name ∉ st.favorites →
        toggleFavorite (toggleFavorite st name) name = st)
    ∧ (∀ (st : AppState) (name : String), st.favorites.Nodup →
        ((toggleFavorite (toggleFavorite st name) name).favorites).Perm st.favorites) := by
  have habsent : ∀ (st : AppState) (name : String), name ∉ st.favorites →
      toggleFavorite (toggleFavorite st name) name = st := by
    intro st name h
    rw [toggleFavorite_eq, toggleFavorite_eq]
    simp only [if_neg h]
    have hmem : name ∈ st.favorites ++ [name] := by simp
    rw [if_pos hmem, List.erase_append_right _ h, List.erase_cons_head]
    simp
  refine ⟨?_, ?_, habsent, ?_⟩
  · intro st name h
    rw [toggleFavorite_eq]
    simp [h]
  · intro st name h
    rw [toggleFavorite_eq]
    simp [h]
  · intro st name hnd
    by_cases h : name ∈ st.favorites
    · rw [toggleFavorite_eq, toggleFavorite_eq]
      simp only [if_pos h]
      have hne : name ∉ st.favorites.erase name := List.Nodup.not_mem_erase hnd
      rw [if_neg hne]
      exact (List.perm_append_singleton _ _).trans (List.perm_cons_erase h).symm
    · rw [habsent st name h]

/-- Witness for C7 (amended): toggling a fresh name twice on `wState`
restores the state exactly, and a single toggle of the present "A"
erases it. -/
theorem toggleFavorite_toggle_witness :
    toggleFavorite (toggleFavorite wState "C") "C" = wState
    ∧ (toggleFavorite wState "A").favorites = wState.favorites.erase "A"
    ∧ ((toggleFavorite (toggleFavorite wState "A") "A").favorites).Perm wState.favorites :=
  ⟨toggleFavorite_toggle.2.2.1 wState "C" (by decide),
   toggleFavorite_toggle.2.1 wState "A" (by decide),
   toggleFavorite_toggle.2.2.2 wState "A" (by decide)⟩

/-- Pure form of the front-insert-and-cap step. -/
theorem cons_cap_eq (name : String) (F : List String) (hF : F.length ≤ 5) :
    (if (name :: F).length > 5 then (name :: F).dropLast else name :: F)
      = name :: F.take 4 := by
  by_cases hgt : (name :: F).length > 5
  · rw [if_pos hgt]
    have h5 : F.length = 5 := by
      simp only [List.length_cons] at hgt
      omega
    rw [List.dropLast_eq_take]
    have hl : (name :: F).length - 1 = 4 + 1 := by
      simp [h5]
    rw [hl, List.take_succ_cons]
  · rw [if_neg hgt]
    have h4 : F.length ≤ 4 := by
      simp only [List.length_cons] at hgt
      omega
    rw [List.take_of_length_le h4]

/-- Closed form of the `recentPages` update: move to front, drop other
occurrences, cap at five entries. -/
theorem recentsStep_eq (name : String) (r : List String) (h : r.length ≤ 5) :
    recentsStep name r = name :: (r.filter (fun rp => rp ≠ name)).take 4 := by
  unfold recentsStep
  exact cons_cap_eq name _ (le_trans (List.length_filter_le _ _) h)

/-- `seedIfEmpty` never changes the page directory or the recents. -/
theorem seedIfEmpty_pages_recents (st : AppState) (store : Store) (fid : String) (now : Nat) :
    (seedIfEmpty st store fid now).1.pages = st.pages
    ∧ (seedIfEmpty st store fid now).1.recentPages = st.recentPages := by
  unfold seedIfEmpty createBlock
  split_ifs <;> exact ⟨rfl, rfl⟩

/-- `loadPage` never changes the page directory. -/
theorem loadPage_pages (st : AppState) (store : Store) (name fid : String) (now : Nat) :
    (loadPage st store name fid now).1.pages = st.pages := by
  unfold loadPage
  split_ifs with h
  · simp only []
    exact (seedIfEmpty_pages_recents _ store fid now).1
  · rfl

/-- On an existing page, `loadPage` updates `recentPages` by
`recentsStep`. -/
theorem loadPage_recents (st : AppState) (store : Store) (name fid : String) (now : Nat)
    (hname : st.pages.any (fun p => p.name = name) = true) :
    (loadPage st store name fid now).1.recentPages = recentsStep name st.recentPages := by
  unfold loadPage
  rw [if_pos hname]
  simp only []
  exact (seedIfEmpty_pages_recents _ store fid now).2

/-- Taking `k` elements of `A ++ L` only sees a long enough prefix of
`L`. -/
theorem take_append_prefix_eq {α : Type} (A P L : List α) (k : Nat) (hp : P <+: L)
    (hk : k ≤ A.length + P.length) :
    (A ++ L).take k = (A ++ P).take k := by
  obtain ⟨t, rfl⟩ := hp
  rw [← List.append_assoc]
  exact List.take_append_of_le_length (by rw [List.length_append]; omega)

/-- A duplicate-free list loses at most `ns.length` elements when
filtered down to the elements outside `ns`. -/
theorem length_filter_notin_ge (X ns : List String) (hX : X.Nodup) :
    X.length ≤ (X.filter (fun x => ¬ x ∈ ns)).length + ns.length := by
  have h1 := List.length_eq_countP_add_countP (p := fun x => decide (¬ x ∈ ns)) (l := X)
  rw [List.countP_eq_length_filter, List.countP_eq_length_filter] at h1
  have h2 : X.filter (fun a => ¬ (decide (¬ a ∈ ns)) = true) = X.filter (fun a => a ∈ ns) := by
    apply List.filter_congr
    intro a _
    by_cases hm : a ∈ ns <;> simp [hm]
  rw [h2] at h1
  have h3 : (X.filter (fun a => a ∈ ns)).length ≤ ns.length := by
    have hnd : (X.filter (fun a => a ∈ ns)).Nodup := hX.filter _
    have hsub : (X.filter (fun a => a ∈ ns)) ⊆ ns := by
      intro x hx
      have := List.mem_filter.mp hx
      simpa using this.2
    exact (hnd.subperm hsub).length_le
  omega

/-- The recents list after a run of `recentsStep`s: the loaded names in
most-recent-first order, then the survivors of the original list, capped
at five. -/
theorem foldl_recentsStep (ns : List String) :
    ∀ (r : List String), r.length ≤ 5 → r.Nodup → ns.Nodup →
    ns.foldl (fun acc n => recentsStep n acc) r
      = (ns.reverse ++ r.filter (fun x => ¬ x ∈ ns)).take 5 := by
  induction ns with
  | nil =>
    intro r h5 _ _
    simp [List.take_of_length_le h5]
  | cons n ns ih =>
    intro r h5 hnd hnsnd
    have hn_ns : n ∉ ns := (List.nodup_cons.mp hnsnd).1
    have hns : ns.Nodup := (List.nodup_cons.mp hnsnd).2
    rw [List.foldl_cons]
    have hstep : recentsStep n r = n :: (r.filter (fun rp => rp ≠ n)).take 4 :=
      recentsStep_eq n r h5
    have hFnd : (r.filter (fun rp => rp ≠ n)).Nodup := hnd.filter _
    have hlen' : (recentsStep n r).length ≤ 5 := by
      rw [hstep]
      have := List.length_take_le 4 (r.filter (fun rp => rp ≠ n))
      simp only [List.length_cons]
      omega
    have hnd' : (recentsStep n r).Nodup := by
      rw [hstep]
      rw [List.nodup_cons]
      constructor
      · intro hmem
        have h1 := List.mem_of_mem_take hmem
        have := (List.mem_filter.mp h1).2
        simp at this
      · exact (List.take_sublist _ _).nodup hFnd
    rw [ih (recentsStep n r) hlen' hnd' hns, hstep]
    rw [List.filter_cons_of_pos (by simpa using hn_ns)]
    rw [List.reverse_cons, List.append_assoc, List.singleton_append]
    have hcomb : r.filter (fun x => ¬ x ∈ (n :: ns))
        = (r.filter (fun rp => rp ≠ n)).filter (fun x => ¬ x ∈ ns) := by
      rw [List.filter_filter]
      apply List.filter_congr
      intro a _
      by_cases h1 : a = n <;> by_cases h2 : a ∈ ns <;> simp [h1, h2, hn_ns]
    rw [hcomb]
    have hshape : ∀ Z : List String, ns.reverse ++ n :: Z = (ns.reverse ++ [n]) ++ Z := by
      intro Z
      simp
    conv_lhs => rw [hshape]
    conv_rhs => rw [hshape]
    by_cases hF : (r.filter (fun rp => rp ≠ n)).length ≤ 4
    · rw [List.take_of_length_le hF]
    · have hF5 : (r.filter (fun rp => rp ≠ n)).length ≤ 5 :=
        le_trans (List.length_filter_le _ _) h5
      have htl : ((r.filter (fun rp => rp ≠ n)).take 4).length = 4 := by
        rw [List.length_take]
        omega
      have hbound := length_filter_notin_ge ((r.filter (fun rp => rp ≠ n)).take 4) ns
        ((List.take_sublist _ _).nodup hFnd)
      refine (take_append_prefix_eq _ _ _ 5 ?_ ?_).symm
      · exact (List.take_prefix 4 _).filter _
      · simp only [List.length_append, List.length_reverse, List.length_singleton]
        omega

/-- A run of `loadPage`s over existing pages leaves the directory
unchanged and drives `recentPages` by `recentsStep`. -/
theorem foldl_loadPage_recents (nfs : List (String × String)) :
    ∀ (acc : AppState × Store) (now : Nat),
      (∀ q ∈ nfs.map Prod.fst, acc.1.pages.any (fun p => p.name = q) = true) →
      (nfs.foldl (fun a nf => loadPage a.1 a.2 nf.1 nf.2 now) acc).1.pages = acc.1.pages
      ∧ (nfs.foldl (fun a nf => loadPage a.1 a.2 nf.1 nf.2 now) acc).1.recentPages
          = (nfs.map Prod.fst).foldl (fun r n => recentsStep n r) acc.1.recentPages := by
  induction nfs with
  | nil =>
    intro acc now _
    exact ⟨rfl, rfl⟩
  | cons nf nfs ih =>
    intro acc now hmem
    rw [List.foldl_cons, List.map_cons, List.foldl_cons]
    have hname : acc.1.pages.any (fun p => p.name = nf.1) = true := hmem nf.1 (by simp)
    have hp := loadPage_pages acc.1 acc.2 nf.1 nf.2 now
    have hr := loadPage_recents acc.1 acc.2 nf.1 nf.2 now hname
    have hmem' : ∀ q ∈ nfs.map Prod.fst,
        (loadPage acc.1 acc.2 nf.1 nf.2 now).1.pages.any (fun p => p.name = q) = true := by
      intro q hq
      rw [hp]
      exact hmem q (by simp [hq])
    obtain ⟨ihp, ihr⟩ := ih (loadPage acc.1 acc.2 nf.1 nf.2 now) now hmem'
    refine ⟨?_, ?_⟩
    · rw [ihp, hp]
    · rw [ihr, hr]

/-- Claim C9 (recent-pages cap): loading an existing page moves its name
to the front of `recentPages`, removes any other occurrence, and keeps
the length at most 5; and after loading six distinct existing pages in
sequence the list holds exactly the five most-recently-loaded names,
most-recent first. -/
theorem loadPage_recent_cap :
    (∀ (st : AppState) (store : Store) (name fid : String) (now : Nat),
      st.pages.any (fun p => p.name = name) = true →
      st.recentPages.length ≤ 5 →
      (loadPage st store name fid now).1.recentPages
        = name :: (st.recentPages.filter (fun rp => rp ≠ name)).take 4
      ∧ (loadPage st store name fid now).1.recentPages.length ≤ 5)
    ∧ (∀ (st : AppState) (store : Store) (now : Nat)
        (p1 p2 p3 p4 p5 p6 f1 f2 f3 f4 f5 f6 : String),
      ([p1, p2, p3, p4, p5, p6] : List String).Nodup →
      (∀ q ∈ ([p1, p2, p3, p4, p5, p6] : List String),
        st.pages.any (fun p => p.name = q) = true) →
      st.recentPages.length ≤ 5 → st.recentPages.Nodup →
      ([(p1, f1), (p2, f2), (p3, f3), (p4, f4), (p5, f5), (p6, f6)].foldl
          (fun a nf => loadPage a.1 a.2 nf.1 nf.2 now) (st, store)).1.recentPages
        = [p6, p5, p4, p3, p2]) := by
  constructor
  · intro st store name fid now hname hlen
    have hr := loadPage_recents st store name fid now hname
    rw [hr, recentsStep_eq name _ hlen]
    refine ⟨rfl, ?_⟩
    simp only [List.length_cons]
    have := List.length_take_le 4 (st.recentPages.filter (fun rp => rp ≠ name))
    omega
  · intro st store now p1 p2 p3 p4 p5 p6 f1 f2 f3 f4 f5 f6 hnd hmem hlen hrnd
    have hmem' : ∀ q ∈ ([(p1, f1), (p2, f2), (p3, f3), (p4, f4), (p5, f5), (p6, f6)]
        : List (String × String)).map Prod.fst,
        st.pages.any (fun p => p.name = q) = true := by
      intro q hq
      apply hmem
      simpa using hq
    have hb := foldl_loadPage_recents
      [(p1, f1), (p2, f2), (p3, f3), (p4, f4), (p5, f5), (p6, f6)] (st, store) now hmem'
    rw [hb.2]
    have hmap : (([(p1, f1), (p2, f2), (p3, f3), (p4, f4), (p5, f5), (p6, f6)]
        : List (String × String)).map Prod.fst) = [p1, p2, p3, p4, p5, p6] := rfl
    rw [hmap, foldl_recentsStep [p1, p2, p3, p4, p5, p6] st.recentPages hlen hrnd hnd]
    rw [show ([p1, p2, p3, p4, p5, p6] : List String).reverse
        = [p6, p5, p4, p3, p2, p1] from rfl]
    rw [List.take_append_of_le_length (by simp)]
    rfl

/-- Witness for C9: loading `p1` .. `p6` on the six-page state `wSix`
leaves `recentPages = [p6, p5, p4, p3, p2]`. -/
theorem loadPage_recent_cap_witness :
    ([("p1", "f1"), ("p2", "f2"), ("p3", "f3"), ("p4", "f4"), ("p5", "f5"),
      ("p6", "f6")].foldl (fun a nf => loadPage a.1 a.2 nf.1 nf.2 0)
        (wSix, ([] : Store))).1.recentPages
      = ["p6", "p5", "p4", "p3", "p2"] :=
  loadPage_recent_cap.2 wSix [] 0 "p1" "p2" "p3" "p4" "p5" "p6" "f1" "f2" "f3" "f4" "f5" "f6"
    (by decide) (by decide) (by decide) (by decide)

/-- Reading back the key just written. -/
theorem storeGet_set_self (store : Store) (k : String) (v : List Block) :
    storeGet (storeSet store k v) k = some v := by
  unfold storeGet storeSet
  rw [List.find?_cons_of_pos _ (by simp)]
  rfl

/-- Claim C10 (implicit): deleting the only block of the current page
leaves the in-memory block list empty and persists the empty list; the
block operations reachable without a rendered block (`updateBlock`,
`deleteBlock`, the Tab handler) never seed a block into an empty page,
while the next `loadPage` of a page whose stored list is empty seeds
exactly one placeholder text block. -/
theorem deleteBlock_last_block :
    (∀ (st : AppState) (store : Store) (p : String) (b : Block),
      st.currentPage = some p → st.blocks = [b] →
      (deleteBlock st store b.id).1.blocks = []
      ∧ storeGet (deleteBlock st store b.id).2 (pageKey p) = some [])
    ∧ (∀ (st : AppState) (store : Store) (id : String) (u : BlockUpdates) (sh : Bool)
        (now : Nat), st.blocks = [] →
      updateBlock st store id u now = (st, store)
      ∧ deleteBlock st store id = (st, store)
      ∧ handleBlockKeydownTab st store id sh now = (st, store))
    ∧ (∀ (st : AppState) (store : Store) (p fid : String) (now : Nat),
      st.pages.any (fun pg => pg.name = p) = true →
      storeGetD store (pageKey p) = [] →
      (loadPage st store p fid now).1.blocks
        = [{ id := fid, type := "text", content := "Type / for commands", indent := 0,
             children := [], createdAt := now, updatedAt := now }]) := by
  refine ⟨?_, ?_, ?_⟩
  · intro st store p b hcur hblocks
    have hfi : st.blocks.findIdx? (fun x => x.id = b.id) = some 0 := by
      rw [hblocks]
      simp [List.findIdx?_cons]
    have hempty : st.blocks.eraseIdx 0 = [] := by
      rw [hblocks]
      rfl
    unfold deleteBlock
    rw [hfi]
    simp only [hempty]
    refine ⟨trivial, ?_⟩
    unfold saveBlocks
    simp only [hcur]
    exact storeGet_set_self store (pageKey p) []
  · intro st store id u sh now hblocks
    refine ⟨?_, ?_, ?_⟩
    · unfold updateBlock
      rw [hblocks]
      rfl
    · unfold deleteBlock
      rw [hblocks]
      rfl
    · unfold handleBlockKeydownTab
      rw [hblocks]
      rfl
  · intro st store p fid now hname hempty
    unfold loadPage
    rw [if_pos hname]
    simp [seedIfEmpty, createBlock, hempty]

/-- Witness for C10: deleting the only block of `wState` empties and
persists the page, and reloading it re-seeds the placeholder. -/
theorem deleteBlock_last_block_witness :
    ((deleteBlock wState [] "b0").1.blocks = []
      ∧ storeGet (deleteBlock wState [] "b0").2 (pageKey "P") = some [])
    ∧ (loadPage { wState with blocks := [] } [(pageKey "P", [])] "P" "f9" 3).1.blocks
        = [{ id := "f9", type := "text", content := "Type / for commands", indent := 0,
             children := [], createdAt := 3, updatedAt := 3 }] :=
  ⟨by
    have h := deleteBlock_last_block.1 wState [] "P" wBlock (by decide) (by decide)
    exact h,
   deleteBlock_last_block.2.2 { wState with blocks := [] } [(pageKey "P", [])] "P" "f9" 3
     (by decide) (by decide)⟩

/-- `List.set` with a value absent from the list preserves
duplicate-freedom. -/
theorem nodup_set_of_not_mem {α : Type} (l : List α) (i : Nat) (b : α)
    (h : l.Nodup) (hb : b ∉ l) : (l.set i b).Nodup := by
  induction l generalizing i with
  | nil => simp
  | cons a t ih =>
    cases i with
    | zero =>
      rw [List.set_cons_zero]
      rw [List.nodup_cons] at h ⊢
      refine ⟨fun hm => hb (List.mem_cons_of_mem _ hm), h.2⟩
    | succ j =>
      rw [List.set_cons_succ]
      rw [List.nodup_cons] at h ⊢
      constructor
      · intro hm
        rcases List.mem_or_eq_of_mem_set hm with hmem | heq
        · exact h.1 hmem
        · refine hb ?_
          rw [← heq]
          exact List.mem_cons_self a t
      · exact ih j h.2 (fun hm => hb (List.mem_cons_of_mem _ hm))

/-- A name is among the page names iff some page bears it. -/
theorem any_name_eq_true_iff (pages : List Page) (name : String) :
    pages.any (fun p => p.name = name) = true ↔ name ∈ pages.map Page.name := by
  rw [List.any_eq_true, List.mem_map]
  constructor
  · rintro ⟨p, hp, he⟩
    exact ⟨p, hp, by simpa using he⟩
  · rintro ⟨p, hp, he⟩
    exact ⟨p, hp, by simpa using he⟩

/-- Claim C4 (page-name uniqueness): `createPage` and `renamePage`
abort without any mutation on a name collision, and both preserve
pairwise-distinct page names. -/
theorem page_name_uniqueness :
    (∀ (st : AppState) (store : Store) (name : String) (parentId : Option String)
        (fpid fbid : String) (now : Nat),
      (∃ p ∈ st.pages, p.name = name) →
      createPage st store name parentId fpid fbid now = (st, store))
    ∧ (∀ (st : AppState) (store : Store) (oldName newName : String) (now : Nat),
      (∃ p ∈ st.pages, p.name = newName) →
      renamePage st store oldName newName now = ((st, store), false))
    ∧ (∀ (st : AppState) (store : Store) (name : String) (parentId : Option String)
        (fpid fbid : String) (now : Nat),
      (st.pages.map Page.name).Nodup →
      ((createPage st store name parentId fpid fbid now).1.pages.map Page.name).Nodup)
    ∧ (∀ (st : AppState) (store : Store) (oldName newName : String) (now : Nat),
      (st.pages.map Page.name).Nodup →
      ((renamePage st store oldName newName now).1.1.pages.map Page.name).Nodup) := by
  have hany : ∀ (pages : List Page) (name : String),
      (∃ p ∈ pages, p.name = name) → pages.any (fun p => p.name = name) = true := by
    intro pages name ⟨p, hp, he⟩
    exact (any_name_eq_true_iff pages name).mpr (List.mem_map.mpr ⟨p, hp, he⟩)
  refine ⟨?_, ?_, ?_, ?_⟩
  · intro st store name parentId fpid fbid now hex
    unfold createPage
    rw [if_pos (hany st.pages name hex)]
  · intro st store oldName newName now hex
    unfold renamePage
    rw [if_pos (hany st.pages newName hex)]
  · intro st store name parentId fpid fbid now hnd
    by_cases hc : st.pages.any (fun p => p.name = name) = true
    · unfold createPage
      rw [if_pos hc]
      exact hnd
    · unfold createPage
      rw [if_neg hc]
      simp only [loadPage_pages]
      rw [List.map_append, List.nodup_append]
      refine ⟨hnd, by simp, ?_⟩
      intro a ha hb
      simp only [List.map_cons, List.map_nil, List.mem_singleton] at hb
      subst hb
      exact hc ((any_name_eq_true_iff st.pages a).mpr ha)
  · intro st store oldName newName now hnd
    by_cases hc : st.pages.any (fun p => p.name = newName) = true
    · unfold renamePage
      rw [if_pos hc]
      exact hnd
    · unfold renamePage
      rw [if_neg hc]
      rcases hfi : st.pages.findIdx? (fun p => p.name = oldName) with _ | i
      · rw [hfi]
        exact hnd
      · rw [hfi]
        simp only
        rcases hget : st.pages[i]? with _ | pg
        · exact hnd
        · simp only [List.map_set]
          apply nodup_set_of_not_mem _ _ _ hnd
          intro hmem
          exact hc ((any_name_eq_true_iff st.pages newName).mpr hmem)

/-- Witness for C4: creating a page named `P` on `wState` (which already
has a page `P`) aborts, and a successful rename keeps names distinct. -/
theorem page_name_uniqueness_witness :
    createPage wState [] "P" none "ipx" "bx" 9 = (wState, ([] : Store))
    ∧ ((renamePage wState [] "P" "Q" 9).1.1.pages.map Page.name).Nodup :=
  ⟨page_name_uniqueness.1 wState [] "P" none "ipx" "bx" 9 ⟨wPage, by decide, by decide⟩,
   page_name_uniqueness.2.2.2 wState [] "P" "Q" 9 (by decide)⟩

/-- `pageKey` is injective. -/
theorem pageKey_inj (a b : String) (h : pageKey a = pageKey b) : a = b := by
  unfold pageKey at h
  have hd := congrArg String.data h
  rw [String.data_append, String.data_append] at hd
  have := List.append_cancel_left hd
  exact String.ext this

/-- Removing a key makes it unreadable. -/
theorem storeGet_remove_self (store : Store) (k : String) :
    storeGet (storeRemove store k) k = none := by
  unfold storeGet storeRemove
  have h : (store.filter (fun kv => kv.1 ≠ k)).find? (fun kv => kv.1 = k) = none := by
    rw [List.find?_eq_none]
    intro kv hkv
    have h2 := (List.mem_filter.mp hkv).2
    simp only [decide_eq_true_eq] at h2
    simpa using h2
  rw [h]
  rfl

/-- Removing one key leaves every other key readable unchanged. -/
theorem storeGet_remove_other (store : Store) (k key : String) (h : key ≠ k) :
    storeGet (storeRemove store k) key = storeGet store key := by
  unfold storeGet storeRemove
  congr 1
  induction store with
  | nil => rfl
  | cons kv t ih =>
    by_cases hq : kv.1 ≠ k
    · rw [List.filter_cons_of_pos (by simpa using hq)]
      by_cases hp : kv.1 = key
      · rw [List.find?_cons_of_pos _ (by simpa using hp),
          List.find?_cons_of_pos _ (by simpa using hp)]
      · rw [List.find?_cons_of_neg _ (by simpa using hp),
          List.find?_cons_of_neg _ (by simpa using hp), ih]
    · rw [List.filter_cons_of_neg (by simpa using hq)]
      have hkv1 : kv.1 = k := by
        by_contra hc
        exact hq hc
      rw [List.find?_cons_of_neg _ (by simp [hkv1, h.symm]), ih]

/-- Filtering keeps the first `find?` hit provided that hit survives the
filter. -/
theorem find?_first_filter {γ : Type} (l : List γ) (p q : γ → Bool) (a : γ)
    (hfind : l.find? p = some a) (hq : q a = true) :
    (l.filter q).find? p = some a := by
  induction l with
  | nil => cases hfind
  | cons b t ih =>
    by_cases hpb : p b = true
    · rw [List.find?_cons_of_pos _ hpb] at hfind
      obtain rfl := Option.some.inj hfind
      rw [List.filter_cons_of_pos hq, List.find?_cons_of_pos _ hpb]
    · rw [List.find?_cons_of_neg _ (by simpa using hpb)] at hfind
      by_cases hqb : q b = true
      · rw [List.filter_cons_of_pos hqb, List.find?_cons_of_neg _ (by simpa using hpb)]
        exact ih hfind
      · rw [List.filter_cons_of_neg (by simpa using hqb)]
        exact ih hfind

/-- Every name in a subtree's child list is among the subtree's names. -/
theorem rootName_mem_names (t : PageTree) : t.rootName ∈ t.names := by
  cases t with
  | node nm cs => exact List.mem_cons_self _ _

/-- The names of a member subtree are among the names of the list. -/
theorem names_subset_namesList (c : PageTree) (ts : List PageTree) (hc : c ∈ ts) :
    ∀ x ∈ c.names, x ∈ PageTree.namesList ts := by
  induction ts with
  | nil => cases hc
  | cons d ts ih =>
    intro x hx
    rcases List.mem_cons.mp hc with rfl | hmem
    · rw [PageTree.namesList]
      exact List.mem_append_left _ hx
    · rw [PageTree.namesList]
      exact List.mem_append_right _ (ih hmem x hx)

/-- A member subtree is no taller than the list height. -/
theorem height_le_heightList (c : PageTree) (ts : List PageTree) (hc : c ∈ ts) :
    c.height ≤ PageTree.heightList ts := by
  induction ts with
  | nil => cases hc
  | cons d ts ih =>
    rcases List.mem_cons.mp hc with rfl | hmem
    · rw [PageTree.heightList]
      exact le_max_left _ _
    · rw [PageTree.heightList]
      exact le_trans (ih hmem) (le_max_right _ _)

/-- Heights are positive. -/
theorem height_pos (t : PageTree) : 1 ≤ t.height := by
  cases t with
  | node nm cs =>
    rw [PageTree.height]
    omega

/-- Combining two name filters over pages. -/
theorem pages_filter_filter (pages : List Page) (D1 D2 : List String) :
    (pages.filter (fun p => ¬ p.name ∈ D1)).filter (fun p => ¬ p.name ∈ D2)
      = pages.filter (fun p => ¬ p.name ∈ D1 ++ D2) := by
  rw [List.filter_filter]
  apply List.filter_congr
  intro a _
  by_cases h1 : a.name ∈ D1 <;> by_cases h2 : a.name ∈ D2 <;> simp [h1, h2]

/-- Combining two membership filters over strings. -/
theorem strings_filter_filter (l D1 D2 : List String) :
    (l.filter (fun x => ¬ x ∈ D1)).filter (fun x => ¬ x ∈ D2)
      = l.filter (fun x => ¬ x ∈ D1 ++ D2) := by
  rw [List.filter_filter]
  apply List.filter_congr
  intro a _
  by_cases h1 : a ∈ D1 <;> by_cases h2 : a ∈ D2 <;> simp [h1, h2]

/-- Peeling a name off a combined pages filter. -/
theorem pages_filter_ne_cons (pages : List Page) (nm : String) (D : List String) :
    (pages.filter (fun p => ¬ p.name ∈ D)).filter (fun p => p.name ≠ nm)
      = pages.filter (fun p => ¬ p.name ∈ nm :: D) := by
  rw [List.filter_filter]
  apply List.filter_congr
  intro a _
  by_cases h1 : a.name ∈ D <;> by_cases h2 : a.name = nm <;> simp [h1, h2]

/-- Peeling a name off a combined string filter. -/
theorem strings_filter_ne_cons (l : List String) (nm : String) (D : List String) :
    (l.filter (fun x => ¬ x ∈ D)).filter (fun x => x ≠ nm)
      = l.filter (fun x => ¬ x ∈ nm :: D) := by
  rw [List.filter_filter]
  apply List.filter_congr
  intro a _
  by_cases h1 : a ∈ D <;> by_cases h2 : a = nm <;> simp [h1, h2]

/-- A faithful name tree survives the removal of pages disjoint from its
names. -/
theorem TreeOK_filter (pages : List Page) (t : PageTree) (removed : List String)
    (hok : TreeOK pages t)
    (hdisj : ∀ x ∈ t.names, ¬ x ∈ removed) :
    TreeOK (pages.filter (fun p => ¬ p.name ∈ removed)) t := by
  induction hok with
  | node nm cs pg hfind hchildren hcs ih =>
    have hnm_names : nm ∈ PageTree.names (.node nm cs) := List.mem_cons_self _ _
    have hq : (¬ pg.name ∈ removed : Bool) = true := by
      have hpg_name : pg.name = nm := by
        have := List.find?_some hfind
        simpa using this
      simp only [hpg_name]
      simpa using hdisj nm hnm_names
    refine TreeOK.node _ nm cs pg ?_ ?_ ?_
    · exact find?_first_filter pages _ _ pg hfind hq
    · unfold childNames
      rw [List.filter_comm]
      have hkeep : (pages.filter (fun p => p.parentId = some pg.id)).filter
          (fun p => ¬ p.name ∈ removed)
          = pages.filter (fun p => p.parentId = some pg.id) := by
        rw [List.filter_eq_self]
        intro a ha
        have haname : a.name ∈ childNames pages pg := by
          unfold childNames
          exact List.mem_map_of_mem _ ha
        rw [hchildren] at haname
        have : a.name ∈ PageTree.names (.node nm cs) := by
          rw [PageTree.names]
          rcases List.mem_map.mp haname with ⟨c, hc, he⟩
          exact List.mem_cons_of_mem _
            (names_subset_namesList c cs hc _ (he ▸ rootName_mem_names c))
        simpa using hdisj a.name this
      rw [hkeep]
      exact hchildren
    · intro c hc
      refine ih c hc ?_
      intro x hx
      refine hdisj x ?_
      rw [PageTree.names]
      exact List.mem_cons_of_mem _ (names_subset_namesList c cs hc x hx)

/-- Field-level description of `removePageFromState`. -/
theorem removePageFromState_fields (st : AppState) (store : Store) (name : String) :
    (removePageFromState st store name).1.pages = st.pages.filter (fun p => p.name ≠ name)
    ∧ (removePageFromState st store name).1.favorites
        = st.favorites.filter (fun f => f ≠ name)
    ∧ (removePageFromState st store name).1.recentPages
        = st.recentPages.filter (fun r => r ≠ name)
    ∧ (removePageFromState st store name).2 = storeRemove store (pageKey name)
    ∧ (st.currentPage = some name →
        (removePageFromState st store name).1.currentPage
          = (st.pages.filter (fun p => p.name ≠ name)).head?.map Page.name)
    ∧ (∀ c, st.currentPage = some c → c ≠ name →
        (removePageFromState st store name).1.currentPage = some c)
    ∧ (st.currentPage = none → (removePageFromState st store name).1.currentPage = none) := by
  by_cases hcur : st.currentPage = some name
  · refine ⟨?_, ?_, ?_, ?_, ?_, ?_, ?_⟩
    · simp [removePageFromState, hcur]
    · simp [removePageFromState, hcur]
    · simp [removePageFromState, hcur]
    · simp [removePageFromState, hcur]
    · intro _
      simp [removePageFromState, hcur]
    · intro c hc hne
      rw [hcur] at hc
      exact absurd (Option.some.inj hc).symm hne
    · intro hnone
      rw [hnone] at hcur
      cases hcur
  · refine ⟨?_, ?_, ?_, ?_, ?_, ?_, ?_⟩
    · simp [removePageFromState, hcur]
    · simp [removePageFromState, hcur]
    · simp [removePageFromState, hcur]
    · simp [removePageFromState, hcur]
    · intro hc
      exact absurd hc hcur
    · intro c hc hne
      simp [removePageFromState, hcur, hc]
      rw [if_neg hne]
    · intro hnone
      simp [removePageFromState, hcur, hnone]

/-- Claim C5 (cascade delete): with every destructive confirmation
granted and fuel at least the height of the deleted subtree, deleting a
page whose descendant structure is the name tree `t` removes exactly
the pages named in `t` (the page itself and, recursively, every
descendant reached through `parentId`), drops exactly those names from
favorites and recents, removes exactly their persisted block lists,
leaves every other store key untouched, and, when the deleted page was
current, repoints the current page at the first remaining page (`none`
when no pages remain); a current page outside the deleted subtree stays
current. -/
theorem deletePage_cascade :
    ∀ (fuel : Nat) (t : PageTree) (st : AppState) (store : Store),
    TreeOK st.pages t →
    (st.pages.map Page.name).Nodup →
    t.names.Nodup →
    t.height ≤ fuel →
    (deletePage fuel st store t.rootName).1.pages
        = st.pages.filter (fun p => ¬ p.name ∈ t.names)
    ∧ (deletePage fuel st store t.rootName).1.favorites
        = st.favorites.filter (fun f => ¬ f ∈ t.names)
    ∧ (deletePage fuel st store t.rootName).1.recentPages
        = st.recentPages.filter (fun r => ¬ r ∈ t.names)
    ∧ (∀ d ∈ t.names, storeGet (deletePage fuel st store t.rootName).2 (pageKey d) = none)
    ∧ (∀ key, (∀ d ∈ t.names, key ≠ pageKey d) →
        storeGet (deletePage fuel st store t.rootName).2 key = storeGet store key)
    ∧ (st.currentPage = some t.rootName →
        (deletePage fuel st store t.rootName).1.currentPage
          = (deletePage fuel st store t.rootName).1.pages.head?.map Page.name)
    ∧ (∀ c, st.currentPage = some c → ¬ c ∈ t.names →
        (deletePage fuel st store t.rootName).1.currentPage = some c)
    ∧ (st.currentPage = none →
        (deletePage fuel st store t.rootName).1.currentPage = none) := by
  intro fuel
  induction fuel with
  | zero =>
    intro t st store _ _ _ hfuel
    exact absurd hfuel (by have := height_pos t; omega)
  | succ fuel ih =>
    intro t st store hok hnd htnd hfuel
    cases hok with
    | node nm cs pg hfind hchildren hcs =>
    simp only [PageTree.names] at htnd ⊢
    simp only [PageTree.rootName]
    simp only [PageTree.height] at hfuel
    have hnm_nin : nm ∉ PageTree.namesList cs := (List.nodup_cons.mp htnd).1
    have hDnd : (PageTree.namesList cs).Nodup := (List.nodup_cons.mp htnd).2
    have hhl : PageTree.heightList cs ≤ fuel := by omega
    -- the fold over the child subtrees
    have hfold : ∀ (ts : List PageTree) (a : AppState × Store),
        (∀ c ∈ ts, TreeOK a.1.pages c) →
        (a.1.pages.map Page.name).Nodup →
        (PageTree.namesList ts).Nodup →
        (∀ c ∈ ts, c.height ≤ fuel) →
        ((ts.map PageTree.rootName).foldl
            (fun acc childName => deletePage fuel acc.1 acc.2 childName) a).1.pages
          = a.1.pages.filter (fun p => ¬ p.name ∈ PageTree.namesList ts)
        ∧ ((ts.map PageTree.rootName).foldl
            (fun acc childName => deletePage fuel acc.1 acc.2 childName) a).1.favorites
          = a.1.favorites.filter (fun f => ¬ f ∈ PageTree.namesList ts)
        ∧ ((ts.map PageTree.rootName).foldl
            (fun acc childName => deletePage fuel acc.1 acc.2 childName) a).1.recentPages
          = a.1.recentPages.filter (fun r => ¬ r ∈ PageTree.namesList ts)
        ∧ (∀ d ∈ PageTree.namesList ts,
            storeGet ((ts.map PageTree.rootName).foldl
              (fun acc childName => deletePage fuel acc.1 acc.2 childName) a).2 (pageKey d)
              = none)
        ∧ (∀ key, (∀ d ∈ PageTree.namesList ts, key ≠ pageKey d) →
            storeGet ((ts.map PageTree.rootName).foldl
              (fun acc childName => deletePage fuel acc.1 acc.2 childName) a).2 key
              = storeGet a.2 key)
        ∧ (∀ c0, a.1.currentPage = some c0 → ¬ c0 ∈ PageTree.namesList ts →
            ((ts.map PageTree.rootName).foldl
              (fun acc childName => deletePage fuel acc.1 acc.2 childName) a).1.currentPage
              = some c0)
        ∧ (a.1.currentPage = none →
            ((ts.map PageTree.rootName).foldl
              (fun acc childName => deletePage fuel acc.1 acc.2 childName) a).1.currentPage
              = none) := by
      intro ts
      induction ts with
      | nil =>
        intro a _ _ _ _
        refine ⟨?_, ?_, ?_, ?_, ?_, ?_, ?_⟩
        · simp [PageTree.namesList]
        · simp [PageTree.namesList]
        · simp [PageTree.namesList]
        · intro d hd
          simp [PageTree.namesList] at hd
        · intro key _
          rfl
        · intro c0 h _
          exact h
        · intro h
          exact h
      | cons c ts ihts =>
        intro a hoks hnd0 hDnd0 hhts
        simp only [PageTree.namesList] at hDnd0 ⊢
        obtain ⟨hnd_c, hnd_ts, hdisj⟩ := List.nodup_append.mp hDnd0
        rw [List.map_cons, List.foldl_cons]
        have hc_ok : TreeOK a.1.pages c := hoks c (List.mem_cons_self _ _)
        have hfirst := ih c a.1 a.2 hc_ok hnd0 hnd_c (hhts c (List.mem_cons_self _ _))
        obtain ⟨hp1, hf1, hr1, hs1, hs1p, _, hcur1, hnone1⟩ := hfirst
        have hoks2 : ∀ c' ∈ ts, TreeOK (deletePage fuel a.1 a.2 c.rootName).1.pages c' := by
          intro c' hc'
          rw [hp1]
          refine TreeOK_filter _ _ _ (hoks c' (List.mem_cons_of_mem _ hc')) ?_
          intro x hx hxin
          exact hdisj hxin (names_subset_namesList c' ts hc' x hx)
        have hnd2 : ((deletePage fuel a.1 a.2 c.rootName).1.pages.map Page.name).Nodup := by
          rw [hp1]
          exact ((List.filter_sublist _).map Page.name).nodup hnd0
        have hh2 : ∀ c' ∈ ts, c'.height ≤ fuel :=
          fun c' hc' => hhts c' (List.mem_cons_of_mem _ hc')
        have hrest := ihts (deletePage fuel a.1 a.2 c.rootName) hoks2 hnd2 hnd_ts hh2
        obtain ⟨hp2, hf2, hr2, hs2, hs2p, hcur2, hnone2⟩ := hrest
        refine ⟨?_, ?_, ?_, ?_, ?_, ?_, ?_⟩
        · rw [hp2, hp1, pages_filter_filter]
        · rw [hf2, hf1, strings_filter_filter]
        · rw [hr2, hr1, strings_filter_filter]
        · intro d hd
          rcases List.mem_append.mp hd with hdc | hdts
          · rw [hs2p (pageKey d) ?_]
            · exact hs1 d hdc
            · intro d' hd' heq
              exact hdisj hdc ((pageKey_inj d d' heq) ▸ hd')
          · exact hs2 d hdts
        · intro key hkey
          rw [hs2p key (fun d hd => hkey d (List.mem_append_right _ hd))]
          exact hs1p key (fun d hd => hkey d (List.mem_append_left _ hd))
        · intro c0 hc0 hc0nin
          refine hcur2 c0 ?_ ?_
          · exact hcur1 c0 hc0 (fun hmem => hc0nin (List.mem_append_left _ hmem))
          · intro hmem
            exact hc0nin (List.mem_append_right _ hmem)
        · intro hn
          exact hnone2 (hnone1 hn)
    -- characterize the whole call
    have hA := hfold cs (st, store) hcs hnd hDnd
      (fun c hc => le_trans (height_le_heightList c cs hc) hhl)
    obtain ⟨hApages, hAfav, hArec, hAs, hAsp, hAcur, hAnone⟩ := hA
    have hstep : deletePage (fuel + 1) st store nm
        = removePageFromState
            ((cs.map PageTree.rootName).foldl
              (fun acc childName => deletePage fuel acc.1 acc.2 childName) (st, store)).1
            ((cs.map PageTree.rootName).foldl
              (fun acc childName => deletePage fuel acc.1 acc.2 childName) (st, store)).2
            nm := by
      simp only [deletePage]
      rw [hfind]
      simp only [hchildren]
    rw [hstep]
    have hrm := removePageFromState_fields
      ((cs.map PageTree.rootName).foldl
        (fun acc childName => deletePage fuel acc.1 acc.2 childName) (st, store)).1
      ((cs.map PageTree.rootName).foldl
        (fun acc childName => deletePage fuel acc.1 acc.2 childName) (st, store)).2
      nm
    obtain ⟨hrmp, hrmf, hrmr, hrms, hrmcroot, hrmcpres, hrmcnone⟩ := hrm
    have hpages_final : (removePageFromState
        ((cs.map PageTree.rootName).foldl
          (fun acc childName => deletePage fuel acc.1 acc.2 childName) (st, store)).1
        ((cs.map PageTree.rootName).foldl
          (fun acc childName => deletePage fuel acc.1 acc.2 childName) (st, store)).2
        nm).1.pages
        = st.pages.filter (fun p => ¬ p.name ∈ nm :: PageTree.namesList cs) := by
      rw [hrmp, hApages, pages_filter_ne_cons]
    refine ⟨hpages_final, ?_, ?_, ?_, ?_, ?_, ?_, ?_⟩
    · rw [hrmf, hAfav, strings_filter_ne_cons]
    · rw [hrmr, hArec, strings_filter_ne_cons]
    · intro d hd
      rw [hrms]
      rcases List.mem_cons.mp hd with rfl | hdc
      · exact storeGet_remove_self _ _
      · have hdne : d ≠ nm := by
          intro he
          exact hnm_nin (he ▸ hdc)
        rw [storeGet_remove_other _ _ _ (fun he => hdne (pageKey_inj d nm he))]
        exact hAs d hdc
    · intro key hkey
      rw [hrms, storeGet_remove_other _ _ _ (hkey nm (List.mem_cons_self _ _))]
      exact hAsp key (fun d hd => hkey d (List.mem_cons_of_mem _ hd))
    · intro hcur
      rw [hrmcroot (hAcur nm hcur hnm_nin)]
      rw [hpages_final, ← pages_filter_ne_cons, ← hApages, ← hrmp]
    · intro c hc hcnin
      refine hrmcpres c ?_ ?_
      · exact hAcur c hc (fun hmem => hcnin (List.mem_cons_of_mem _ hmem))
      · intro he
        exact hcnin (he ▸ List.mem_cons_self _ _)
    · intro hn
      exact hrmcnone (hAnone hn)

/-- Witness for C5: deleting `A` from `wDelState` removes `A`, `B`, `C`
(keeping `D`), removes the descendants' persisted block lists, and
repoints the current page at the first remaining page. -/
theorem deletePage_cascade_witness :
    (deletePage 5 wDelState wDelStore "A").1.pages
        = wDelState.pages.filter (fun p => ¬ p.name ∈ wDelTree.names)
    ∧ storeGet (deletePage 5 wDelState wDelStore "A").2 (pageKey "C") = none
    ∧ (deletePage 5 wDelState wDelStore "A").1.currentPage
        = (deletePage 5 wDelState wDelStore "A").1.pages.head?.map Page.name := by
  have htokC : TreeOK wDelState.pages (.node "C" []) := by
    refine TreeOK.node _ "C" [] wPgC (by decide) (by decide) ?_
    intro c hc
    exact absurd hc (List.not_mem_nil c)
  have htokB : TreeOK wDelState.pages (.node "B" [.node "C" []]) := by
    refine TreeOK.node _ "B" [.node "C" []] wPgB (by decide) (by decide) ?_
    intro c hc
    rw [List.mem_singleton] at hc
    subst hc
    exact htokC
  have htok : TreeOK wDelState.pages wDelTree := by
    refine TreeOK.node _ "A" [.node "B" [.node "C" []]] wPgA (by decide) (by decide) ?_
    intro c hc
    rw [List.mem_singleton] at hc
    subst hc
    exact htokB
  have h := deletePage_cascade 5 wDelTree wDelState wDelStore htok (by decide) (by decide)
    (by decide)
  exact ⟨h.1, h.2.2.2.1 "C" (by decide), h.2.2.2.2.2.1 (by decide)⟩

end Mejakerja
